import Mathlib

/-!
A shallow embedding of the core of the `avro-rs` fork (files `src/types.rs` and
`src/encode.rs`), together with theorems checking the natural-language
specification against it.

Conventions of the embedding:

* Machine integers `i32`/`i64` are modelled as `Int` together with explicit
  two's-complement wrapping (`wrap32`/`wrap64`) at every place the Rust code
  performs an `as` cast.
* `f32`/`f64` values are carried as their IEEE754 bit patterns (`Nat`); the
  encoder's `transmute` to little-endian bytes is modelled exactly.  The
  numeric promotions of the resolver (`as f32` etc.) are bit-level IEEE
  conversions that are outside the scope of this embedding; they are modelled
  by abstract stand-in functions (see `f32_bits_of_int` below) — no claim under
  check observes their values.
* `Vec<u8>` buffers receive only appends (`push` / `extend_from_slice`), so an
  encoding function is modelled as returning the list of bytes it appends.
* `HashMap<String, V>` is modelled as an association list with the canonical
  operations `hmGet` / `hmErase` / `hmInsert` (insert overwrites, `collect`
  from an iterator lets the last binding win, exactly as for `HashMap`).
* A Rust panic (`expect`, out-of-bounds indexing) is modelled as `none` in an
  `Option` result.
* The types declared in `schema.rs` (not part of the sources given:
  `SchemaTree`, `Schema`, `UnionSchema`, `SchemaParseContext`, `SchemaKind`,
  `Name`, `RecordField`) and the helpers of `util.rs` (`zig_i32`, `zig_i64`)
  are modelled from the specification document; each such definition carries a
  doc comment starting with `Modelled from the spec:`.
* Rust code can recurse forever on a pathological resolution context (a
  `TypeReference` whose lookup yields another `TypeReference`, or a recursive
  record schema whose default keeps re-entering itself).  Dereferencing a
  `TypeReference` therefore consumes one unit of an explicit `fuel` parameter;
  exhausted fuel yields `false` / a `fuelExhausted` error, modelling the
  divergence of the original.  No other operation consumes fuel.
-/

namespace Avro

/-- Modelled from the spec: a (possibly namespaced) name of a named schema
node.  The source accesses `name.name.namespace`; the intermediate wrapper is
flattened away here. -/
structure Name where
  name : String
  nspace : Option String
deriving DecidableEq

/-- Modelled from the spec: the sort ordering direction stored in a record
field (`RecordFieldOrder` in `schema.rs`). -/
inductive RecordFieldOrder where
  | ascending
  | descending
  | ignore
deriving DecidableEq

/-- Modelled from the spec: the numeric payload of a `serde_json` number,
which is one of `i64`, `u64` or `f64` (`f64` carried as its bit pattern). -/
inductive JsonNumber where
  | i (n : Int)
  | u (n : Nat)
  | f (bits : Nat)
deriving DecidableEq

/-- Modelled from the spec: a `serde_json::Value`, the form in which a record
field's declared default is stored. -/
inductive JsonValue where
  | null
  | bool (b : Bool)
  | num (n : JsonNumber)
  | str (s : String)
  | arr (items : List JsonValue)
  | obj (items : List (String × JsonValue))

mutual

/-- Modelled from the spec: the recursive schema description, `SchemaTree` in
`schema.rs`.  `union` carries the ordered branch list of a `UnionSchema`;
`typeReference` is a by-name pointer resolved through the context. -/
inductive SchemaTree where
  | null
  | boolean
  | int
  | long
  | float
  | double
  | bytes
  | string
  | fixed (name : Name) (size : Nat)
  | enum (name : Name) (doc : Option String) (symbols : List String)
  | union (branches : List SchemaTree)
  | array (inner : SchemaTree)
  | map (inner : SchemaTree)
  | record (name : Name) (doc : Option String) (fields : List RecordField)
      (lookup : List (String × Nat))
  | typeReference (name : Name)

/-- Modelled from the spec: one field of a record schema: name, doc,
optional default value (in JSON form), field schema, ordering direction and
0-based position. -/
inductive RecordField where
  | mk (name : String) (doc : Option String) (default : Option JsonValue)
      (schema : SchemaTree) (order : RecordFieldOrder) (position : Nat)

end

def RecordField.name : RecordField → String
  | .mk n _ _ _ _ _ => n

def RecordField.default : RecordField → Option JsonValue
  | .mk _ _ d _ _ _ => d

def RecordField.schema : RecordField → SchemaTree
  | .mk _ _ _ s _ _ => s

/-- The canonical in-memory representation of an Avro datum (`Value` in
`types.rs`).  `int`/`long` carry `Int` (for `i32`/`i64`), `float`/`double`
carry IEEE754 bit patterns, byte sequences are lists of `Nat` bytes, and
`map` stands for a `HashMap<String, Value>`. -/
inductive Value where
  | null
  | boolean (b : Bool)
  | int (i : Int)
  | long (i : Int)
  | float (bits : Nat)
  | double (bits : Nat)
  | bytes (bs : List Nat)
  | string (s : String)
  | fixed (size : Nat) (bs : List Nat)
  | enum (i : Int) (s : String)
  | union (v : Value)
  | array (items : List Value)
  | map (items : List (String × Value))
  | record (fields : List (String × Value))

/-- Modelled from the spec: the per-call resolution context
(`SchemaParseContext` in `schema.rs`): the fully-qualified-name lookup table
and the ambient namespace. -/
structure SchemaParseContext where
  types : List (String × SchemaTree)
  current_namespace : Option String

/-- Modelled from the spec: a finished schema handed over by the
schema-construction collaborator: the tree plus the named-type table from
which a fresh context is created per top-level call. -/
structure Schema where
  tree : SchemaTree
  types : List (String × SchemaTree)

def Schema.new_context (s : Schema) : SchemaParseContext :=
  ⟨s.types, none⟩

/-- Modelled from the spec: `SchemaKind`, the discriminant-only view used by
`SchemaKind::from` on values and schema trees. -/
inductive SchemaKind where
  | null
  | boolean
  | int
  | long
  | float
  | double
  | bytes
  | string
  | fixed
  | enum
  | union
  | array
  | map
  | record
  | typeReference
deriving DecidableEq

/-- Modelled from the spec: `SchemaKind::from(&Value)`. -/
def valueKind : Value → SchemaKind
  | .null => .null
  | .boolean _ => .boolean
  | .int _ => .int
  | .long _ => .long
  | .float _ => .float
  | .double _ => .double
  | .bytes _ => .bytes
  | .string _ => .string
  | .fixed _ _ => .fixed
  | .enum _ _ => .enum
  | .union _ => .union
  | .array _ => .array
  | .map _ => .map
  | .record _ => .record

/-- Modelled from the spec: `SchemaKind::from(&SchemaTree)`. -/
def treeKind : SchemaTree → SchemaKind
  | .null => .null
  | .boolean => .boolean
  | .int => .int
  | .long => .long
  | .float => .float
  | .double => .double
  | .bytes => .bytes
  | .string => .string
  | .fixed _ _ => .fixed
  | .enum _ _ _ => .enum
  | .union _ => .union
  | .array _ => .array
  | .map _ => .map
  | .record _ _ _ _ => .record
  | .typeReference _ => .typeReference

/-! ### Association-list model of `HashMap<String, V>` -/

/-- `HashMap::get`: the value bound to `k`, if any. -/
def hmGet {α : Type} (k : String) (m : List (String × α)) : Option α :=
  (m.find? (fun p => p.fst == k)).map Prod.snd

/-- The map with every binding of `k` removed. -/
def hmErase {α : Type} (k : String) (m : List (String × α)) : List (String × α) :=
  m.filter (fun p => p.fst != k)

/-- `HashMap::remove`: the removed value together with the shrunken map. -/
def hmRemove {α : Type} (k : String) (m : List (String × α)) :
    Option α × List (String × α) :=
  (hmGet k m, hmErase k m)

/-- `HashMap::insert`: overwrites any existing binding of `k`. -/
def hmInsert {α : Type} (k : String) (v : α) (m : List (String × α)) :
    List (String × α) :=
  hmErase k m ++ [(k, v)]

/-- `iter().collect::<HashMap<_, _>>()`: later bindings win. -/
def hmCollect {α : Type} (l : List (String × α)) : List (String × α) :=
  l.foldl (fun m kv => hmInsert kv.fst kv.snd m) []

/-- Modelled from the spec: qualification of a relative name by the ambient
namespace, as used by the name→schema lookup. -/
def qualifyName (n : Name) (ambient : Option String) : String :=
  match n.nspace with
  | some ns => ns ++ "." ++ n.name
  | none =>
      match ambient with
      | some ns => ns ++ "." ++ n.name
      | none => n.name

/-- Modelled from the spec: `SchemaParseContext::lookup_type`, resolving a
(possibly relative) type name through the context's table. -/
def SchemaParseContext.lookup_type (ctx : SchemaParseContext) (n : Name) :
    Option SchemaTree :=
  hmGet (qualifyName n ctx.current_namespace) ctx.types

/-- The snippet `if let Some(_) = name.name.namespace
{ context.current_namespace = name.name.namespace.clone(); }` that the
validator runs when descending into a named node. -/
def nsUpdate (n : Name) (ctx : SchemaParseContext) : SchemaParseContext :=
  match n.nspace with
  | some _ => { ctx with current_namespace := n.nspace }
  | none => ctx

/-! ### Two's-complement wrapping and the zig-zag varint (`util.rs`) -/

/-- Two's-complement wrapping of an `Int` into the `i32` range, modelling
`as i32`. -/
def wrap32 (n : Int) : Int :=
  (n + 2 ^ 31) % 2 ^ 32 - 2 ^ 31

/-- Two's-complement wrapping of an `Int` into the `i64` range, modelling
`as i64`. -/
def wrap64 (n : Int) : Int :=
  (n + 2 ^ 63) % 2 ^ 64 - 2 ^ 63

/-- The zig-zag map sending a (range-wrapped) signed integer to the unsigned
integer `(n<<1) XOR (n>>w-1)`: non-negative `m` to `2m`, negative `m` to
`-2m-1`. -/
def zigzagMap (m : Int) : Nat :=
  (if 0 ≤ m then 2 * m else -2 * m - 1).toNat

/-- 7-bits-per-byte little-endian varint emission; the first argument is
structural fuel (always sufficient when it exceeds the number, since the
number shrinks by a factor of 128 each step). -/
def varintAux : Nat → Nat → List Nat
  | 0, n => [n % 128]
  | fuel + 1, n => if n < 128 then [n] else (n % 128 + 128) :: varintAux fuel (n / 128)

/-- The variable-length encoding of an unsigned integer: 7 bits per byte,
little-endian group order, continuation bit set on all but the final byte. -/
def varintEncode (n : Nat) : List Nat :=
  varintAux (n + 1) n

/-- Modelled from the spec: `zig_i32` of `util.rs` — zig-zag varint encoding
of an `i32`. -/
def zig_i32 (n : Int) : List Nat :=
  varintEncode (zigzagMap (wrap32 n))

/-- Modelled from the spec: `zig_i64` of `util.rs` — zig-zag varint encoding
of an `i64`. -/
def zig_i64 (n : Int) : List Nat :=
  varintEncode (zigzagMap (wrap64 n))

/-! ### UTF-8 (`String::into_bytes`, `String::from_utf8`, `str::len`) -/

/-- The UTF-8 bytes of one scalar value. -/
def charUtf8 (c : Char) : List Nat :=
  let n := c.toNat
  if n < 128 then [n]
  else if n < 2048 then [192 + n / 64, 128 + n % 64]
  else if n < 65536 then [224 + n / 4096, 128 + n / 64 % 64, 128 + n % 64]
  else [240 + n / 262144, 128 + n / 4096 % 64, 128 + n / 64 % 64, 128 + n % 64]

/-- The UTF-8 byte sequence of a string (`as_bytes` / `into_bytes`). -/
def utf8Bytes (s : String) : List Nat :=
  (s.data.map charUtf8).flatten

/-- Is `b` a UTF-8 continuation byte? -/
def isCont (b : Nat) : Bool :=
  128 ≤ b && b < 192

/-- Strict UTF-8 decoding of a byte sequence into scalar values; `none` on
malformed input (as `String::from_utf8` errs). -/
def decodeUtf8Chars : List Nat → Option (List Char)
  | [] => some []
  | b :: rest =>
      if b < 128 then (decodeUtf8Chars rest).map (Char.ofNat b :: ·)
      else if b < 192 then none
      else if b < 224 then
        match rest with
        | c1 :: rest' =>
            if isCont c1 then
              let n := (b - 192) * 64 + (c1 - 128)
              if 128 ≤ n then (decodeUtf8Chars rest').map (Char.ofNat n :: ·)
              else none
            else none
        | _ => none
      else if b < 240 then
        match rest with
        | c1 :: c2 :: rest' =>
            if isCont c1 && isCont c2 then
              let n := (b - 224) * 4096 + (c1 - 128) * 64 + (c2 - 128)
              if 2048 ≤ n ∧ ¬(55296 ≤ n ∧ n < 57344) then
                (decodeUtf8Chars rest').map (Char.ofNat n :: ·)
              else none
            else none
        | _ => none
      else if b < 248 then
        match rest with
        | c1 :: c2 :: c3 :: rest' =>
            if isCont c1 && isCont c2 && isCont c3 then
              let n := (b - 240) * 262144 + (c1 - 128) * 4096 + (c2 - 128) * 64
                + (c3 - 128)
              if 65536 ≤ n ∧ n < 1114112 then
                (decodeUtf8Chars rest').map (Char.ofNat n :: ·)
              else none
            else none
        | _ => none
      else none

/-- `String::from_utf8`. -/
def stringFromUtf8 (bs : List Nat) : Option String :=
  (decodeUtf8Chars bs).map fun cs => String.mk cs

/-! ### Abstract stand-ins for IEEE754 numeric casts (see the header note) -/

/-- Stand-in for `n as f32` on an integer: the resolver's numeric promotion;
its exact IEEE754 value is never observed by a claim. -/
def f32_bits_of_int (n : Int) : Nat :=
  (wrap32 n + 2 ^ 31).toNat

/-- Stand-in for `n as f64` on an integer. -/
def f64_bits_of_int (n : Int) : Nat :=
  (wrap64 n + 2 ^ 63).toNat

/-- Stand-in for `x as f32` on an `f64` bit pattern. -/
def f32_bits_of_f64 (bits : Nat) : Nat :=
  bits % 2 ^ 32

/-- Stand-in for `f64::from(x)` on an `f32` bit pattern. -/
def f64_bits_of_f32 (bits : Nat) : Nat :=
  bits % 2 ^ 32

/-- The first index at which `s` occurs, `iter().position(|item| item == s)`. -/
def listPosition (l : List String) (s : String) : Option Nat :=
  go l 0
where
  go : List String → Nat → Option Nat
    | [], _ => none
    | x :: rest, i => if x == s then some i else go rest (i + 1)

/-- Errors of schema resolution (`SchemaResolutionError` plus the UTF-8
error that `?` converts).  The source stores formatted strings; each
constructor here stands for one `format!` call site, carrying its arguments:
`expectedGot what got` is `"{what} expected, got {got:?}"`. -/
inductive SchemaResolutionError where
  | expectedGot (expected : String) (got : Value)
  | fixedSizeMismatch (expected : Nat) (got : Nat)
  | enumDefaultNotAmong (symbol : String) (symbols : List String)
  | enumOutOfBound (i : Int) (bound : Int)
  | enumExpectedGot (symbols : List String) (got : Value)
  | unionNoMatch
  | arrayExpectedGot (schema : SchemaTree) (got : Value)
  | mapExpectedGot (schema : SchemaTree) (got : Value)
  | recordExpectedGot (fields : List RecordField) (got : Value)
  | missingField (name : String)
  | typeRefUnresolved (name : Name)
  | utf8 (bytes : List Nat)
  | fuelExhausted

/-! ### `ToAvro` for `serde_json::Value` (`types.rs`, lines 234–254) -/

mutual

/-- `impl ToAvro for JsonValue`: conversion of a JSON default into a
canonical `Value`. -/
def jsonAvro : JsonValue → Value
  | .null => .null
  | .bool b => .boolean b
  | .num (.i n) => .long n
  | .num (.f bits) => .double bits
  | .num (.u n) => .long (wrap64 n)
  | .str s => .string s
  | .arr items => .array (jsonAvroList items)
  | .obj items => .map (jsonAvroObj items)

def jsonAvroList : List JsonValue → List Value
  | [] => []
  | x :: rest => jsonAvro x :: jsonAvroList rest

def jsonAvroObj : List (String × JsonValue) → List (String × Value)
  | [] => []
  | (k, v) :: rest => (k, jsonAvro v) :: jsonAvroObj rest

end

/-! ### The validator (`Value::validate_inner`, `types.rs` lines 267–348)

The context is threaded in state-passing style, mirroring the `&mut` Rust
parameter; `&&`/`all` short-circuiting is preserved. -/

mutual

def Value.validate_inner (v : Value) (schema : SchemaTree)
    (context : SchemaParseContext) (fuel : Nat) : Bool × SchemaParseContext :=
  match v, schema with
  | .null, .null => (true, context)
  | .boolean _, .boolean => (true, context)
  | .int _, .int => (true, context)
  | .long _, .long => (true, context)
  | .float _, .float => (true, context)
  | .double _, .double => (true, context)
  | .bytes _, .bytes => (true, context)
  | .string _, .string => (true, context)
  | .fixed n _, .fixed name size => (n == size, nsUpdate name context)
  | .string s, .enum name _ symbols => (symbols.contains s, nsUpdate name context)
  | .enum i s, .enum name _ symbols =>
      -- `symbols.get(i as usize)`: a negative `i32` wraps to a huge `usize`,
      -- so the lookup misses and the `unwrap_or(false)` applies.
      (if 0 ≤ i then ((symbols.get? i.toNat).map (fun sym => sym == s)).getD false
       else false,
       nsUpdate name context)
  | .union value, .union inner =>
      let (r, c') := findSchemaAux value inner 0 context fuel
      (r.isSome, c')
  | .array items, .array inner => validateItems items inner context fuel
  | .map items, .map inner => validateEntries items inner context fuel
  | .record record_fields, .record name _ fields _ =>
      let c1 := nsUpdate name context
      if fields.length = record_fields.length then
        validateFieldsZip fields record_fields c1 fuel
      else (false, c1)
  | .record rf, .union inner =>
      let (r, c') := findSchemaAux (.record rf) inner 0 context fuel
      (r.isSome, c')
  | .record rf, .typeReference name =>
      (match fuel with
       | 0 => (false, context)
       | fuel' + 1 =>
           match context.lookup_type name with
           | some s' => Value.validate_inner (.record rf) s' context fuel'
           | none => (false, context))
  | .fixed n bs, .typeReference name =>
      (match fuel with
       | 0 => (false, context)
       | fuel' + 1 =>
           match context.lookup_type name with
           | some s' => Value.validate_inner (.fixed n bs) s' context fuel'
           | none => (false, context))
  | _, _ => (false, context)
termination_by (fuel, sizeOf schema, sizeOf v)

def validateItems (items : List Value) (inner : SchemaTree)
    (context : SchemaParseContext) (fuel : Nat) : Bool × SchemaParseContext :=
  match items with
  | [] => (true, context)
  | item :: rest =>
      let (ok, c') := Value.validate_inner item inner context fuel
      if ok then validateItems rest inner c' fuel else (false, c')
termination_by (fuel, sizeOf inner, sizeOf items)

def validateEntries (entries : List (String × Value)) (inner : SchemaTree)
    (context : SchemaParseContext) (fuel : Nat) : Bool × SchemaParseContext :=
  match entries with
  | [] => (true, context)
  | (_, value) :: rest =>
      let (ok, c') := Value.validate_inner value inner context fuel
      if ok then validateEntries rest inner c' fuel else (false, c')
termination_by (fuel, sizeOf inner, sizeOf entries)

def validateFieldsZip (fields : List RecordField)
    (record_fields : List (String × Value)) (context : SchemaParseContext)
    (fuel : Nat) : Bool × SchemaParseContext :=
  match fields, record_fields with
  | .mk fname _ _ fschema _ _ :: fs, (name, value) :: rest =>
      if fname = name then
        let (ok, c') := Value.validate_inner value fschema context fuel
        if ok then validateFieldsZip fs rest c' fuel else (false, c')
      else (false, context)
  | _, _ => (true, context)
termination_by (fuel, sizeOf fields, sizeOf record_fields)

def findSchemaAux (value : Value) (branches : List SchemaTree) (idx : Nat)
    (context : SchemaParseContext) (fuel : Nat) :
    Option (Nat × SchemaTree) × SchemaParseContext :=
  match branches with
  | [] => (none, context)
  | b :: rest =>
      let (ok, c') := Value.validate_inner value b context fuel
      if ok then (some (idx, b), c')
      else findSchemaAux value rest (idx + 1) c' fuel
termination_by (fuel, sizeOf branches, sizeOf value)

end

/-- Modelled from the spec: `UnionSchema::find_schema` — the ordered
first-structural-match search over the branches, returning the 0-based index
and the winning branch. -/
def find_schema (value : Value) (branches : List SchemaTree)
    (context : SchemaParseContext) (fuel : Nat) :
    Option (Nat × SchemaTree) × SchemaParseContext :=
  findSchemaAux value branches 0 context fuel

/-- `Value::validate`: fresh context per call (`schema.new_context()`). -/
def Value.validate (v : Value) (schema : Schema) (fuel : Nat) : Bool :=
  (Value.validate_inner v schema.tree schema.new_context fuel).fst

theorem findSchemaAux_branch_size (value : Value) (bs : List SchemaTree)
    (idx : Nat) (c : SchemaParseContext) (fuel : Nat) (i : Nat)
    (b : SchemaTree) (c' : SchemaParseContext)
    (h : findSchemaAux value bs idx c fuel = (some (i, b), c')) :
    sizeOf b < sizeOf bs := by
  induction bs generalizing idx c with
  | nil => simp [findSchemaAux] at h
  | cons hd tl ih =>
      rw [findSchemaAux] at h
      rcases hv : Value.validate_inner value hd c fuel with ⟨ok, c₁⟩
      rw [hv] at h
      by_cases hok : ok = true
      · subst hok
        simp at h
        rcases h with ⟨⟨_, hb⟩, _⟩
        subst hb
        simp
        omega
      · rw [Bool.not_eq_true] at hok
        subst hok
        simp at h
        have := ih _ _ h
        simp
        omega

theorem find_schema_branch_size (value : Value) (bs : List SchemaTree)
    (c : SchemaParseContext) (fuel : Nat) (i : Nat) (b : SchemaTree)
    (c' : SchemaParseContext)
    (h : find_schema value bs c fuel = (some (i, b), c')) :
    sizeOf b < sizeOf bs :=
  findSchemaAux_branch_size value bs 0 c fuel i b c' h

/-! ### Schema resolution (`Value::resolve*`, `types.rs` lines 356–597) -/

/-- The pre-dispatch step of `Value::resolve`: if the value is a union but
the reader schema is not, pull the inner value out. -/
def unionUnwrap (self : Value) (schema : SchemaTree) : Value :=
  if valueKind self = SchemaKind.union ∧ treeKind schema ≠ SchemaKind.union then
    match self with
    | .union b => b
    | v => v
  else self

def Value.resolve_null : Value → Except SchemaResolutionError Value
  | .null => .ok .null
  | other => .error (.expectedGot "Null" other)

def Value.resolve_boolean : Value → Except SchemaResolutionError Value
  | .boolean b => .ok (.boolean b)
  | other => .error (.expectedGot "Boolean" other)

def Value.resolve_int : Value → Except SchemaResolutionError Value
  | .int n => .ok (.int n)
  | .long n => .ok (.int (wrap32 n))
  | other => .error (.expectedGot "Int" other)

def Value.resolve_long : Value → Except SchemaResolutionError Value
  | .int n => .ok (.long n)
  | .long n => .ok (.long n)
  | other => .error (.expectedGot "Long" other)

def Value.resolve_float : Value → Except SchemaResolutionError Value
  | .int n => .ok (.float (f32_bits_of_int n))
  | .long n => .ok (.float (f32_bits_of_int n))
  | .float x => .ok (.float x)
  | .double x => .ok (.float (f32_bits_of_f64 x))
  | other => .error (.expectedGot "Float" other)

def Value.resolve_double : Value → Except SchemaResolutionError Value
  | .int n => .ok (.double (f64_bits_of_int n))
  | .long n => .ok (.double (f64_bits_of_int n))
  | .float x => .ok (.double (f64_bits_of_f32 x))
  | .double x => .ok (.double x)
  | other => .error (.expectedGot "Double" other)

def Value.resolve_bytes : Value → Except SchemaResolutionError Value
  | .bytes bs => .ok (.bytes bs)
  | .string s => .ok (.bytes (utf8Bytes s))
  | other => .error (.expectedGot "Bytes" other)

def Value.resolve_string : Value → Except SchemaResolutionError Value
  | .string s => .ok (.string s)
  | .bytes bs =>
      match stringFromUtf8 bs with
      | some s => .ok (.string s)
      | none => .error (.utf8 bs)
  | other => .error (.expectedGot "String" other)

/-- `Value::resolve_fixed`.  Note: the kind-mismatch arm of the source emits
the literal message `"String expected, got {:?}"`. -/
def Value.resolve_fixed (self : Value) (size : Nat) :
    Except SchemaResolutionError Value :=
  match self with
  | .fixed n bs =>
      if n = size then .ok (.fixed n bs)
      else .error (.fixedSizeMismatch size n)
  | other => .error (.expectedGot "String" other)

/-- The `validate_symbol` closure of `Value::resolve_enum`: membership in the
symbol list, the result carrying the re-derived index. -/
def validateSymbol (symbol : String) (symbols : List String) :
    Except SchemaResolutionError Value :=
  match listPosition symbols symbol with
  | some index => .ok (.enum (wrap32 index) symbol)
  | none => .error (.enumDefaultNotAmong symbol symbols)

/-- `Value::resolve_enum`.  Note the bound test `i > 0 && i < len`
(strictly greater than zero) of the source. -/
def Value.resolve_enum (self : Value) (symbols : List String) :
    Except SchemaResolutionError Value :=
  match self with
  | .enum i s =>
      if 0 < i ∧ i < wrap32 (symbols.length : Int) then validateSymbol s symbols
      else .error (.enumOutOfBound i (wrap32 (symbols.length : Int)))
  | .string s => validateSymbol s symbols
  | other => .error (.enumExpectedGot symbols other)

/-- The default-conversion step of the record field loop: the declared
default (JSON form) converted by `.avro()`; an Enum-schema default is first
re-validated via `resolve_enum`, whose error the `?` propagates. -/
def defaultValue (fschema : SchemaTree) (d : JsonValue) :
    Except SchemaResolutionError Value :=
  match fschema with
  | .enum _ _ symbols => Value.resolve_enum (jsonAvro d) symbols
  | _ => .ok (jsonAvro d)

/-- The `let value = match items.remove(&field.name) {...}` block of the
field loop: the writer-provided value if one was removed, else the converted
default, else the missing-field error. -/
def chooseFieldValue (fname : String) (fschema : SchemaTree)
    (fdefault : Option JsonValue) (removed : Option Value) :
    Except SchemaResolutionError Value :=
  match removed with
  | some value => .ok value
  | none =>
      match fdefault with
      | some d => defaultValue fschema d
      | none => .error (.missingField fname)

/-- Appending one resolved reader field (`.map(|value| (field.name.clone(),
value))` plus the collect's short-circuit) onto the rest of the field loop. -/
def fieldCons (fname : String) (rv : Value)
    (rest : Except SchemaResolutionError (List (String × Value)) × SchemaParseContext) :
    Except SchemaResolutionError (List (String × Value)) × SchemaParseContext :=
  match rest with
  | (.ok kvs, c'') => (.ok ((fname, rv) :: kvs), c'')
  | (.error e, c'') => (.error e, c'')

mutual

/-- `Value::resolve`: unwrap a union value when the reader schema is not a
union, then dispatch on the reader schema kind. -/
def Value.resolve (self : Value) (schema : SchemaTree)
    (context : SchemaParseContext) (fuel : Nat) :
    Except SchemaResolutionError Value × SchemaParseContext :=
  let self' := unionUnwrap self schema
  match schema with
  | .null => (Value.resolve_null self', context)
  | .boolean => (Value.resolve_boolean self', context)
  | .int => (Value.resolve_int self', context)
  | .long => (Value.resolve_long self', context)
  | .float => (Value.resolve_float self', context)
  | .double => (Value.resolve_double self', context)
  | .bytes => (Value.resolve_bytes self', context)
  | .string => (Value.resolve_string self', context)
  | .fixed _ size => (Value.resolve_fixed self' size, context)
  | .union inner => Value.resolve_union self' inner context fuel
  | .enum _ _ symbols => (Value.resolve_enum self' symbols, context)
  | .array inner => Value.resolve_array self' inner context fuel
  | .map inner => Value.resolve_map self' inner context fuel
  | .record _ _ fields _ => Value.resolve_record self' fields context fuel
  | .typeReference name =>
      (match fuel with
       | 0 => (.error .fuelExhausted, context)
       | fuel' + 1 =>
           match context.lookup_type name with
           | some s => Value.resolve self' s context fuel'
           | none => (.error (.typeRefUnresolved name), context))
termination_by (fuel, 2 * sizeOf schema, sizeOf self)

/-- `Value::resolve_union`: unwrap, then resolve into the first structurally
matching reader branch. -/
def Value.resolve_union (self : Value) (branches : List SchemaTree)
    (context : SchemaParseContext) (fuel : Nat) :
    Except SchemaResolutionError Value × SchemaParseContext :=
  let v :=
    match self with
    | .union b => b
    | v => v
  match h : find_schema v branches context fuel with
  | (some (_, inner), c') => Value.resolve v inner c' fuel
  | (none, c') => (.error .unionNoMatch, c')
termination_by (fuel, 2 * sizeOf branches + 1, sizeOf self)
decreasing_by
  have hs := find_schema_branch_size _ _ _ _ _ _ _ h
  decreasing_tactic

def Value.resolve_array (self : Value) (schema : SchemaTree)
    (context : SchemaParseContext) (fuel : Nat) :
    Except SchemaResolutionError Value × SchemaParseContext :=
  match self with
  | .array items =>
      (match resolveItems items schema context fuel with
       | (.ok vs, c') => (.ok (.array vs), c')
       | (.error e, c') => (.error e, c'))
  | other => (.error (.arrayExpectedGot schema other), context)
termination_by (fuel, 2 * sizeOf schema + 1, sizeOf self)

def resolveItems (items : List Value) (schema : SchemaTree)
    (context : SchemaParseContext) (fuel : Nat) :
    Except SchemaResolutionError (List Value) × SchemaParseContext :=
  match items with
  | [] => (.ok [], context)
  | item :: rest =>
      match Value.resolve item schema context fuel with
      | (.ok v, c') =>
          (match resolveItems rest schema c' fuel with
           | (.ok vs, c'') => (.ok (v :: vs), c'')
           | (.error e, c'') => (.error e, c''))
      | (.error e, c') => (.error e, c')
termination_by (fuel, 2 * sizeOf schema, sizeOf items)

def Value.resolve_map (self : Value) (schema : SchemaTree)
    (context : SchemaParseContext) (fuel : Nat) :
    Except SchemaResolutionError Value × SchemaParseContext :=
  match self with
  | .map items =>
      (match resolveMapEntries items schema context fuel with
       | (.ok kvs, c') => (.ok (.map kvs), c')
       | (.error e, c') => (.error e, c'))
  | other => (.error (.mapExpectedGot schema other), context)
termination_by (fuel, 2 * sizeOf schema + 1, sizeOf self)

def resolveMapEntries (entries : List (String × Value)) (schema : SchemaTree)
    (context : SchemaParseContext) (fuel : Nat) :
    Except SchemaResolutionError (List (String × Value)) × SchemaParseContext :=
  match entries with
  | [] => (.ok [], context)
  | (key, value) :: rest =>
      match Value.resolve value schema context fuel with
      | (.ok v, c') =>
          (match resolveMapEntries rest schema c' fuel with
           | (.ok kvs, c'') => (.ok ((key, v) :: kvs), c'')
           | (.error e, c'') => (.error e, c''))
      | (.error e, c') => (.error e, c')
termination_by (fuel, 2 * sizeOf schema, sizeOf entries)

/-- `Value::resolve_record`: accept a `Map` or a `Record` (converted to a
name→value map, later bindings winning), then build the reader fields. -/
def Value.resolve_record (self : Value) (fields : List RecordField)
    (context : SchemaParseContext) (fuel : Nat) :
    Except SchemaResolutionError Value × SchemaParseContext :=
  match self with
  | .map items =>
      (match resolveFields fields items context fuel with
       | (.ok nf, c') => (.ok (.record nf), c')
       | (.error e, c') => (.error e, c'))
  | .record rfields =>
      (match resolveFields fields (hmCollect rfields) context fuel with
       | (.ok nf, c') => (.ok (.record nf), c')
       | (.error e, c') => (.error e, c'))
  | other => (.error (.recordExpectedGot fields other), context)
termination_by (fuel, 2 * sizeOf fields + 1, sizeOf self)

/-- The per-reader-field loop of `Value::resolve_record`: take the
writer-provided value out of the map, else the declared default (an
enum-schema default re-validated first), else fail; resolve the chosen value
against the field schema. -/
def resolveFields (fields : List RecordField) (items : List (String × Value))
    (context : SchemaParseContext) (fuel : Nat) :
    Except SchemaResolutionError (List (String × Value)) × SchemaParseContext :=
  match fields with
  | [] => (.ok [], context)
  | .mk fname _ fdefault fschema _ _ :: fs =>
      match hmRemove fname items with
      | (removed, items') =>
          match chooseFieldValue fname fschema fdefault removed with
          | .ok value =>
              (match Value.resolve value fschema context fuel with
               | (.ok rv, c') =>
                   fieldCons fname rv
                     (resolveFields fs
                       (if removed.isSome then items' else items) c' fuel)
               | (.error e, c') => (.error e, c'))
          | .error e => (.error e, context)
termination_by (fuel, 2 * sizeOf fields, 0)

end

/-! ### The encoder (`encode.rs`)

`buffer: &mut Vec<u8>` receives only appends, so each function returns the
byte list it appends; `none` models a panic. -/

/-- Little-endian bytes of a bit pattern, fixed byte count (the encoder's
`transmute` of `f32`/`f64`). -/
def leBytes : Nat → Nat → List Nat
  | 0, _ => []
  | k + 1, bits => bits % 256 :: leBytes k (bits / 256)

/-- `encode_bytes`: Long-encoded byte count followed by the raw bytes. -/
def encode_bytes (bs : List Nat) : List Nat :=
  zig_i64 (bs.length : Int) ++ bs

def encode_long (i : Int) : List Nat :=
  zig_i64 i

def encode_int (i : Int) : List Nat :=
  zig_i32 i

mutual

/-- `encode_ref_inner` (`encode.rs` lines 40–121): schema-guided encoding of
a value, dispatching on the value's variant and consulting the schema only
for strings, unions, containers and records.  `none` models a panic: the
`expect` of the union arm, or the out-of-bounds `schema_fields[i]` of the
record arms. -/
def encode_ref_inner (value : Value) (schema : SchemaTree)
    (context : SchemaParseContext) (fuel : Nat) :
    Option (List Nat × SchemaParseContext) :=
  match value with
  | .null => some ([], context)
  | .boolean b => some ([if b then 1 else 0], context)
  | .int i => some (encode_int i, context)
  | .long i => some (encode_long i, context)
  | .float bits => some (leBytes 4 bits, context)
  | .double bits => some (leBytes 8 bits, context)
  | .bytes bs => some (encode_bytes bs, context)
  | .string s =>
      (match schema with
       | .string => some (encode_bytes (utf8Bytes s), context)
       | .enum _ _ symbols =>
           (match listPosition symbols s with
            | some index => some (encode_int (index : Int), context)
            | none => some ([], context))
       | _ => some ([], context))
  | .fixed _ bs => some (bs, context)
  | .enum i _ => some (encode_int i, context)
  | .union item =>
      (match schema with
       | .union inner =>
           (match find_schema item inner context fuel with
            | (some (idx, inner_schema), c') =>
                (match encode_ref_inner item inner_schema c' fuel with
                 | some (bs, c'') => some (encode_long (idx : Int) ++ bs, c'')
                 | none => none)
            | (none, _) => none)
       | _ => some ([], context))
  | .array items =>
      (match schema with
       | .array inner =>
           if items.isEmpty then some ([0], context)
           else
             (match encodeItems items inner context fuel with
              | some (bs, c') =>
                  some (encode_long (items.length : Int) ++ bs ++ [0], c')
              | none => none)
       | _ => some ([], context))
  | .map items =>
      (match schema with
       | .map inner =>
           if items.isEmpty then some ([0], context)
           else
             (match encodeEntries items inner context fuel with
              | some (bs, c') =>
                  some (encode_long (items.length : Int) ++ bs ++ [0], c')
              | none => none)
       | _ => some ([], context))
  | .record fields =>
      (match schema with
       | .record _ _ schema_fields _ =>
           encodeRecordFields fields schema_fields context fuel
       | .typeReference n =>
           (match context.lookup_type n with
            | some (SchemaTree.record _ _ schema_fields _) =>
                encodeRecordFields fields schema_fields context fuel
            | _ => some ([], context))
       | _ => some ([], context))
termination_by (sizeOf value, sizeOf schema)

def encodeItems (items : List Value) (inner : SchemaTree)
    (context : SchemaParseContext) (fuel : Nat) :
    Option (List Nat × SchemaParseContext) :=
  match items with
  | [] => some ([], context)
  | item :: rest =>
      match encode_ref_inner item inner context fuel with
      | some (b1, c') =>
          (match encodeItems rest inner c' fuel with
           | some (b2, c'') => some (b1 ++ b2, c'')
           | none => none)
      | none => none
termination_by (sizeOf items, sizeOf inner)

def encodeEntries (entries : List (String × Value)) (inner : SchemaTree)
    (context : SchemaParseContext) (fuel : Nat) :
    Option (List Nat × SchemaParseContext) :=
  match entries with
  | [] => some ([], context)
  | (key, value) :: rest =>
      match encode_ref_inner value inner context fuel with
      | some (b1, c') =>
          (match encodeEntries rest inner c' fuel with
           | some (b2, c'') =>
               some (encode_bytes (utf8Bytes key) ++ b1 ++ b2, c'')
           | none => none)
      | none => none
termination_by (sizeOf entries, sizeOf inner)

/-- The field loop of the record arms: each value field is encoded against
`schema_fields[i].schema`; a value field without a schema field at its index
is the panicking `schema_fields[i]`. -/
def encodeRecordFields (fields : List (String × Value))
    (schema_fields : List RecordField) (context : SchemaParseContext)
    (fuel : Nat) : Option (List Nat × SchemaParseContext) :=
  match fields, schema_fields with
  | [], _ => some ([], context)
  | _ :: _, [] => none
  | (_, v) :: rest, .mk _ _ _ fschema _ _ :: sfs =>
      match encode_ref_inner v fschema context fuel with
      | some (b1, c') =>
          (match encodeRecordFields rest sfs c' fuel with
           | some (b2, c'') => some (b1 ++ b2, c'')
           | none => none)
      | none => none
termination_by (sizeOf fields, sizeOf schema_fields)

end

/-- Modelled from the spec: `SchemaParseContext::new()` — the fresh, empty
context that the public `encode` entry point creates. -/
def SchemaParseContext.new : SchemaParseContext :=
  ⟨[], none⟩

/-- The public `encode` entry point (fresh context). -/
def encode (value : Value) (schema : SchemaTree) (fuel : Nat) :
    Option (List Nat × SchemaParseContext) :=
  encode_ref_inner value schema SchemaParseContext.new fuel

/-- `encode_inner`: encoding under a caller-supplied context. -/
def encode_inner (value : Value) (schema : SchemaTree)
    (context : SchemaParseContext) (fuel : Nat) :
    Option (List Nat × SchemaParseContext) :=
  encode_ref_inner value schema context fuel

/-- `encode_to_vec`. -/
def encode_to_vec (value : Value) (schema : SchemaTree) (fuel : Nat) :
    Option (List Nat) :=
  (encode value schema fuel).map Prod.fst

/-! ### The `Record` builder (`types.rs` lines 174–232) -/

/-- The `Record` builder: the ordered field list and the name→position
lookup borrowed from the schema. -/
structure Record where
  fields : List (String × Value)
  schema_lookup : List (String × Nat)

/-- `self.fields[position].1 = value`: replace the value at `position`,
keeping the field name. -/
def setFieldValue : List (String × Value) → Nat → Value → List (String × Value)
  | [], _, _ => []
  | p :: rest, 0, v => (p.fst, v) :: rest
  | p :: rest, n + 1, v => p :: setFieldValue rest n v

/-- `Record::put` (specialised to an already-converted `Value`, the identity
`ToAvro` instance): look the field name up; absent names are a silent no-op.
`none` models the panic of the `self.fields[position]` indexing when the
looked-up position is out of range. -/
def Record.put (r : Record) (field : String) (value : Value) : Option Record :=
  match hmGet field r.schema_lookup with
  | some position =>
      if position < r.fields.length then
        some { r with fields := setFieldValue r.fields position value }
      else none
  | none => some r

/-- `Record::with_placeholder`. -/
def Record.with_placeholder (schema : Schema) (placeholder : Value) :
    Option Record :=
  match schema.tree with
  | .record _ _ schema_fields lookup =>
      some ⟨schema_fields.map (fun sf => (sf.name, placeholder)), lookup⟩
  | _ => none

/-- `Record::new`. -/
def Record.new (schema : Schema) : Option Record :=
  Record.with_placeholder schema .null

/-! ### Claim-side auxiliary definitions -/

/-- Does the encoder treat this value without consulting the schema at all
(everything except strings, unions, containers and records)? -/
def primitiveValue : Value → Bool
  | .null => true
  | .boolean _ => true
  | .int _ => true
  | .long _ => true
  | .float _ => true
  | .double _ => true
  | .bytes _ => true
  | .fixed _ _ => true
  | .enum _ _ => true
  | .string _ => false
  | .union _ => false
  | .array _ => false
  | .map _ => false
  | .record _ => false

mutual

/-- No `Union` and no `Record` occurs anywhere in the value: the condition
under which no panicking arm of the encoder is reachable. -/
def unionRecordFree : Value → Bool
  | .union _ => false
  | .record _ => false
  | .array items => unionRecordFreeList items
  | .map entries => unionRecordFreeEntries entries
  | _ => true

def unionRecordFreeList : List Value → Bool
  | [] => true
  | v :: rest => unionRecordFree v && unionRecordFreeList rest

def unionRecordFreeEntries : List (String × Value) → Bool
  | [] => true
  | (_, v) :: rest => unionRecordFree v && unionRecordFreeEntries rest

end

/-- The value-only part of the record validation (claim C7's reading): each
positional field value validated against the corresponding schema field's
schema, contexts threaded exactly as the validator threads them, but without
the name comparisons. -/
def recordValuesCheck (fields : List RecordField)
    (record_fields : List (String × Value)) (context : SchemaParseContext)
    (fuel : Nat) : Bool × SchemaParseContext :=
  match fields, record_fields with
  | .mk _ _ _ fschema _ _ :: fs, (_, value) :: rest =>
      let (ok, c') := Value.validate_inner value fschema context fuel
      if ok then recordValuesCheck fs rest c' fuel else (false, c')
  | _, _ => (true, context)

/-- Modelled from the spec (claim C4's wording): for each reader field, take
the writer-provided value if the field name is PRESENT in the writer map (a
pure lookup, no consumption), else the field's declared default (an
enum-schema default re-validated against the symbol list first), else fail
with the missing-field error; the chosen value is resolved against the field
schema. -/
def resolveFieldsSpec (fields : List RecordField)
    (items : List (String × Value)) (context : SchemaParseContext)
    (fuel : Nat) :
    Except SchemaResolutionError (List (String × Value)) × SchemaParseContext :=
  match fields with
  | [] => (.ok [], context)
  | .mk fname _ fdefault fschema _ _ :: fs =>
      match chooseFieldValue fname fschema fdefault (hmGet fname items) with
      | .ok value =>
          (match Value.resolve value fschema context fuel with
           | (.ok rv, c') =>
               fieldCons fname rv (resolveFieldsSpec fs items c' fuel)
           | (.error e, c') => (.error e, c'))
      | .error e => (.error e, context)

/-! ### Claims -/

/-- C1: the claim states that resolving `Enum(i, s)` against an enum reader
schema succeeds exactly when `i ∈ [0, symbols.len())` and `s` is a symbol
member.  The code's bound test is `i > 0 && i < len`, so the in-bounds index
0 with a valid member symbol is rejected with the out-of-bounds error: the
claim is right and the code is off by one. -/
theorem claim1_enum_index_zero_rejected :
    Value.resolve (.enum 0 "spades")
        (.enum ⟨"some_enum", none⟩ none ["spades", "hearts"])
        SchemaParseContext.new 1
      = (.error (.enumOutOfBound 0 2), SchemaParseContext.new)
    ∧ listPosition ["spades", "hearts"] "spades" = some 0 := by
  constructor
  · rw [Value.resolve]
    simp [valueKind, treeKind, unionUnwrap, Value.resolve_enum, wrap32]
  · decide

/-- C8: the claim states that a kind-mismatch during resolution against a
Fixed reader schema produces an error naming the expected schema kind.  The
code's `resolve_fixed` mismatch arm emits the literal message
`"String expected, got {:?}"` (a copy-paste of the `resolve_string` arm), so
the message names `String`, not `Fixed`. -/
theorem claim8_fixed_mismatch_names_string :
    Value.resolve .null (.fixed ⟨"some_fixed", none⟩ 4) SchemaParseContext.new 1
      = (.error (.expectedGot "String" .null), SchemaParseContext.new)
    ∧ "String" ≠ "Fixed" := by
  constructor
  · rw [Value.resolve]
    simp [valueKind, treeKind, unionUnwrap, Value.resolve_fixed]
  · decide

/-- C5: encoding an empty Array against any Array schema, or an empty Map
against any Map schema, appends exactly the single byte 0. -/
theorem claim5_empty_containers (inner : SchemaTree)
    (context : SchemaParseContext) (fuel : Nat) :
    encode_ref_inner (.array []) (.array inner) context fuel
      = some ([0], context)
    ∧ encode_ref_inner (.map []) (.map inner) context fuel
      = some ([0], context) := by
  constructor <;> rw [encode_ref_inner] <;> simp

/-- C6: encoding `Union(v)` against a Union schema emits the Long-encoded
0-based index of the first structurally matching branch, followed by the
encoding of `v` against that branch's schema. -/
theorem claim6_union_branch_encoding (v : Value) (branches : List SchemaTree)
    (context : SchemaParseContext) (fuel : Nat) (idx : Nat)
    (branch : SchemaTree) (c' : SchemaParseContext) (bs : List Nat)
    (c'' : SchemaParseContext)
    (h1 : find_schema v branches context fuel = (some (idx, branch), c'))
    (h2 : encode_ref_inner v branch c' fuel = some (bs, c'')) :
    encode_ref_inner (.union v) (.union branches) context fuel
      = some (encode_long (idx : Int) ++ bs, c'') := by
  rw [encode_ref_inner, h1]
  simp [h2]

/-- Witness for C6, on the spec's own examples: `Union(Int(5))` against
`Union[Null, Int]` yields the Long-encoded index 1 (`[2]`) followed by the
Int-encoding of 5 (`[10]`); against `Union[Int, Null]` it yields index 0. -/
theorem claim6_union_branch_encoding_witness :
    encode_ref_inner (.union (.int 5)) (.union [.null, .int])
        SchemaParseContext.new 1
      = some ([2, 10], SchemaParseContext.new)
    ∧ encode_ref_inner (.union (.int 5)) (.union [.int, .null])
        SchemaParseContext.new 1
      = some ([0, 10], SchemaParseContext.new) := by
  constructor
  · have h := claim6_union_branch_encoding (.int 5) [.null, .int]
      SchemaParseContext.new 1 1 .int SchemaParseContext.new [10]
      SchemaParseContext.new
      (by simp [find_schema, findSchemaAux, Value.validate_inner])
      (by rw [encode_ref_inner]; rfl)
    rw [h]
    rfl
  · have h := claim6_union_branch_encoding (.int 5) [.int, .null]
      SchemaParseContext.new 1 0 .int SchemaParseContext.new [10]
      SchemaParseContext.new
      (by simp [find_schema, findSchemaAux, Value.validate_inner])
      (by rw [encode_ref_inner]; rfl)
    rw [h]
    rfl

/-- C9: encoding a String against an Enum schema emits the Int-encoded
0-based index of the string in the symbol list (not a length-prefixed UTF-8
string); a string not among the symbols emits nothing. -/
theorem claim9_string_against_enum (s : String) (nm : Name)
    (doc : Option String) (symbols : List String)
    (context : SchemaParseContext) (fuel : Nat) :
    (∀ index, listPosition symbols s = some index →
       encode_ref_inner (.string s) (.enum nm doc symbols) context fuel
         = some (encode_int (index : Int), context))
    ∧ (listPosition symbols s = none →
       encode_ref_inner (.string s) (.enum nm doc symbols) context fuel
         = some ([], context)) := by
  constructor
  · intro index h
    rw [encode_ref_inner, h]
  · intro h
    rw [encode_ref_inner, h]

/-- Witness for C9: `"hearts"` is symbol 1 of the scheme, so it encodes as
`[2]`; `"lorem"` is not a symbol and encodes as nothing. -/
theorem claim9_string_against_enum_witness :
    listPosition ["spades", "hearts"] "hearts" = some 1
    ∧ encode_ref_inner (.string "hearts")
        (.enum ⟨"e", none⟩ none ["spades", "hearts"]) SchemaParseContext.new 1
      = some ([2], SchemaParseContext.new)
    ∧ listPosition ["spades", "hearts"] "lorem" = none
    ∧ encode_ref_inner (.string "lorem")
        (.enum ⟨"e", none⟩ none ["spades", "hearts"]) SchemaParseContext.new 1
      = some ([], SchemaParseContext.new) := by
  refine ⟨by decide, ?_, by decide, ?_⟩
  · have h := (claim9_string_against_enum "hearts" ⟨"e", none⟩ none
      ["spades", "hearts"] SchemaParseContext.new 1).1 1 (by decide)
    rw [h]
    rfl
  · exact (claim9_string_against_enum "lorem" ⟨"e", none⟩ none
      ["spades", "hearts"] SchemaParseContext.new 1).2 (by decide)

theorem setFieldValue_length (l : List (String × Value)) (pos : Nat)
    (v : Value) : (setFieldValue l pos v).length = l.length := by
  induction l generalizing pos with
  | nil => simp [setFieldValue]
  | cons p rest ih =>
      cases pos with
      | zero => simp [setFieldValue]
      | succ n => simp [setFieldValue, ih n]

theorem setFieldValue_get_ne (l : List (String × Value)) (pos j : Nat)
    (v : Value) (hj : j ≠ pos) :
    (setFieldValue l pos v).get? j = l.get? j := by
  induction l generalizing pos j with
  | nil => simp [setFieldValue]
  | cons p rest ih =>
      cases pos with
      | zero =>
          cases j with
          | zero => exact absurd rfl hj
          | succ m => simp [setFieldValue]
      | succ n =>
          cases j with
          | zero => simp [setFieldValue]
          | succ m => simpa [setFieldValue] using ih n m (by omega)

theorem setFieldValue_get_eq (l : List (String × Value)) (pos : Nat)
    (v : Value) (h : pos < l.length) :
    (setFieldValue l pos v).get? pos
      = (l.get? pos).map (fun p => (p.fst, v)) := by
  induction l generalizing pos with
  | nil => simp at h
  | cons p rest ih =>
      cases pos with
      | zero => simp [setFieldValue]
      | succ n => simpa [setFieldValue] using ih n (by simpa using h)

/-- C10: `Record::put` with a field name absent from the schema lookup is a
silent no-op; with a present name (whose looked-up position is in range, as
the builder construction guarantees) exactly the value at that position
changes and every other field, and the lookup itself, is unchanged. -/
theorem claim10_put_frame (r : Record) (field : String) (value : Value) :
    (hmGet field r.schema_lookup = none → r.put field value = some r)
    ∧ (∀ position, hmGet field r.schema_lookup = some position →
        position < r.fields.length →
        r.put field value
          = some { r with fields := setFieldValue r.fields position value }
        ∧ (setFieldValue r.fields position value).length = r.fields.length
        ∧ (∀ j, j ≠ position →
            (setFieldValue r.fields position value).get? j = r.fields.get? j)
        ∧ (setFieldValue r.fields position value).get? position
            = (r.fields.get? position).map (fun p => (p.fst, value))) := by
  constructor
  · intro h
    rw [Record.put, h]
  · intro position hget hlt
    exact ⟨by rw [Record.put, hget]; simp [hlt],
      setFieldValue_length r.fields position value,
      fun j hj => setFieldValue_get_ne r.fields position j value hj,
      setFieldValue_get_eq r.fields position value hlt⟩

/-- Witness for C10: on a concrete two-field builder, putting an unknown
name changes nothing, and putting `"b"` rewrites exactly position 1. -/
theorem claim10_put_frame_witness :
    (hmGet "zz" [("a", 0), ("b", 1)] = (none : Option Nat)
     ∧ Record.put ⟨[("a", .null), ("b", .null)], [("a", 0), ("b", 1)]⟩ "zz" (.int 7)
       = some ⟨[("a", .null), ("b", .null)], [("a", 0), ("b", 1)]⟩)
    ∧ (hmGet "b" [("a", 0), ("b", 1)] = some 1
       ∧ Record.put ⟨[("a", .null), ("b", .null)], [("a", 0), ("b", 1)]⟩ "b" (.int 7)
         = some ⟨[("a", .null), ("b", .int 7)], [("a", 0), ("b", 1)]⟩) := by
  constructor
  · refine ⟨by decide, ?_⟩
    exact (claim10_put_frame ⟨[("a", .null), ("b", .null)], [("a", 0), ("b", 1)]⟩
      "zz" (.int 7)).1 (by decide)
  · refine ⟨by decide, ?_⟩
    have h := ((claim10_put_frame ⟨[("a", .null), ("b", .null)], [("a", 0), ("b", 1)]⟩
      "b" (.int 7)).2 1 (by decide) (by decide)).1
    rw [h]
    rfl

theorem unionRecordFreeList_mem (items : List Value)
    (h : unionRecordFreeList items = true) :
    ∀ item ∈ items, unionRecordFree item = true := by
  induction items with
  | nil => simp
  | cons v rest ih =>
      rw [unionRecordFreeList] at h
      rcases Bool.and_eq_true_iff.mp h with ⟨h1, h2⟩
      intro item hmem
      rcases List.mem_cons.mp hmem with heq | htl
      · exact heq ▸ h1
      · exact ih h2 item htl

theorem unionRecordFreeEntries_mem (entries : List (String × Value))
    (h : unionRecordFreeEntries entries = true) :
    ∀ entry ∈ entries, unionRecordFree entry.snd = true := by
  induction entries with
  | nil => simp
  | cons p rest ih =>
      obtain ⟨k, v⟩ := p
      rw [unionRecordFreeEntries] at h
      rcases Bool.and_eq_true_iff.mp h with ⟨h1, h2⟩
      intro entry hmem
      rcases List.mem_cons.mp hmem with heq | htl
      · exact heq ▸ h1
      · exact ih h2 entry htl

theorem encodeItems_ne_none (items : List Value) (inner : SchemaTree)
    (context : SchemaParseContext) (fuel : Nat)
    (h : ∀ item ∈ items, ∀ (s : SchemaTree) (c : SchemaParseContext)
      (f : Nat), encode_ref_inner item s c f ≠ none) :
    encodeItems items inner context fuel ≠ none := by
  induction items generalizing context with
  | nil => simp [encodeItems]
  | cons item rest ih =>
      rw [encodeItems]
      cases he : encode_ref_inner item inner context fuel with
      | none => exact absurd he (h item (by simp) _ _ _)
      | some pc =>
          obtain ⟨b1, c'⟩ := pc
          cases hr : encodeItems rest inner c' fuel with
          | none =>
              exact absurd hr
                (ih c' (fun it hit => h it (List.mem_cons_of_mem item hit)))
          | some pc2 =>
              obtain ⟨b2, c''⟩ := pc2
              simp [hr]

theorem encodeEntries_ne_none (entries : List (String × Value))
    (inner : SchemaTree) (context : SchemaParseContext) (fuel : Nat)
    (h : ∀ entry ∈ entries, ∀ (s : SchemaTree) (c : SchemaParseContext)
      (f : Nat), encode_ref_inner entry.snd s c f ≠ none) :
    encodeEntries entries inner context fuel ≠ none := by
  induction entries generalizing context with
  | nil => simp [encodeEntries]
  | cons p rest ih =>
      obtain ⟨key, value⟩ := p
      rw [encodeEntries]
      cases he : encode_ref_inner value inner context fuel with
      | none => exact absurd he (h (key, value) (by simp) _ _ _)
      | some pc =>
          obtain ⟨b1, c'⟩ := pc
          cases hr : encodeEntries rest inner c' fuel with
          | none =>
              exact absurd hr
                (ih c' (fun e he' => h e (List.mem_cons_of_mem (key, value) he')))
          | some pc2 =>
              obtain ⟨b2, c''⟩ := pc2
              simp [hr]

/-- A value containing no `Union` and no `Record` never reaches a panicking
arm of the encoder. -/
theorem encode_unionRecordFree_ne_none :
    ∀ (n : Nat) (v : Value), sizeOf v ≤ n → unionRecordFree v = true →
    ∀ (s : SchemaTree) (context : SchemaParseContext) (fuel : Nat),
      encode_ref_inner v s context fuel ≠ none := by
  intro n
  induction n with
  | zero =>
      intro v hv
      exact absurd hv (by cases v <;> simp)
  | succ n ih =>
      intro v hv hfree s context fuel
      cases v with
      | null => rw [encode_ref_inner]; simp
      | boolean b => rw [encode_ref_inner]; simp
      | int i => rw [encode_ref_inner]; simp
      | long i => rw [encode_ref_inner]; simp
      | float bits => rw [encode_ref_inner]; simp
      | double bits => rw [encode_ref_inner]; simp
      | bytes bs => rw [encode_ref_inner]; simp
      | fixed sz bs => rw [encode_ref_inner]; simp
      | enum i sy => rw [encode_ref_inner]; simp
      | string str =>
          cases s <;> rw [encode_ref_inner] <;> simp
          all_goals (split <;> simp)
      | union v' => exact absurd hfree (by simp [unionRecordFree])
      | record rf => exact absurd hfree (by simp [unionRecordFree])
      | array items =>
          cases s <;> rw [encode_ref_inner] <;> simp
          next inner =>
            rcases hemp : items.isEmpty with _ | _
            · simp only [hemp, Bool.false_eq_true, if_false]
              have hsz : sizeOf items ≤ n := by
                have := hv
                simp at this
                omega
              have hitems : ∀ item ∈ items, ∀ (s' : SchemaTree)
                  (c : SchemaParseContext) (f : Nat),
                  encode_ref_inner item s' c f ≠ none := by
                intro item hmem s' c f
                have hlt : sizeOf item < sizeOf items :=
                  List.sizeOf_lt_of_mem hmem
                have hfr : unionRecordFree item = true :=
                  unionRecordFreeList_mem items (by simpa [unionRecordFree] using hfree)
                    item hmem
                exact ih item (by omega) hfr s' c f
              cases hE : encodeItems items inner context fuel with
              | none => exact absurd hE (encodeItems_ne_none items inner context fuel hitems)
              | some pc =>
                  obtain ⟨bs, c'⟩ := pc
                  simp
            · simp [hemp]
      | map entries =>
          cases s <;> rw [encode_ref_inner] <;> simp
          next inner =>
            rcases hemp : entries.isEmpty with _ | _
            · simp only [hemp, Bool.false_eq_true, if_false]
              have hsz : sizeOf entries ≤ n := by
                have := hv
                simp at this
                omega
              have hentries : ∀ entry ∈ entries, ∀ (s' : SchemaTree)
                  (c : SchemaParseContext) (f : Nat),
                  encode_ref_inner entry.snd s' c f ≠ none := by
                intro entry hmem s' c f
                have hlt : sizeOf entry < sizeOf entries :=
                  List.sizeOf_lt_of_mem hmem
                have hlt2 : sizeOf entry.snd < sizeOf entry := by
                  obtain ⟨k, v'⟩ := entry
                  simp
                  try omega
                have hfr : unionRecordFree entry.snd = true :=
                  unionRecordFreeEntries_mem entries
                    (by simpa [unionRecordFree] using hfree) entry hmem
                exact ih entry.snd (by omega) hfr s' c f
              cases hE : encodeEntries entries inner context fuel with
              | none => exact absurd hE (encodeEntries_ne_none entries inner context fuel hentries)
              | some pc =>
                  obtain ⟨bs, c'⟩ := pc
                  simp
            · simp [hemp]

/-- C2 counterexample: the claim states that a kind-mismatched subtree emits
no bytes and that encoding never panics.  Both parts fail: a `Boolean`
against a `Null` schema is a kind mismatch yet emits the byte 1, and a
`Union` value against a `Union` schema with no matching branch panics (the
`expect`, modelled as `none`). -/
theorem claim2_counterexample :
    (valueKind (.boolean true) ≠ treeKind .null
      ∧ encode_ref_inner (.boolean true) .null SchemaParseContext.new 1
          = some ([1], SchemaParseContext.new))
    ∧ encode_ref_inner (.union (.boolean true)) (.union [.null])
        SchemaParseContext.new 1 = none := by
  refine ⟨⟨by decide, ?_⟩, ?_⟩
  · rw [encode_ref_inner]
    rfl
  · rw [encode_ref_inner]
    simp [find_schema, findSchemaAux, Value.validate_inner]

/-- C2 amended: the encoder has no error channel, and a value free of
`Union` and `Record` subvalues never fails; a `Union`, `Array` or `Map`
value whose schema kind does not match — and a `Record` against anything but
a record or type-reference schema, and a `String` against anything but a
string or enum schema — emits no bytes; but a primitive value (`Null`,
`Boolean`, `Int`, `Long`, `Float`, `Double`, `Bytes`, `Fixed`, `Enum`) is
encoded from the value alone, emitting its bytes whatever the schema says,
and encoding can panic (modelled `none`) when a `Union` value meets a
`Union` schema with no structurally matching branch or a `Record` value has
more fields than its record schema. -/
theorem claim2_amended (v : Value) (s : SchemaTree)
    (context : SchemaParseContext) (fuel : Nat) :
    (unionRecordFree v = true → encode_ref_inner v s context fuel ≠ none)
    ∧ (primitiveValue v = true → ∀ s',
        encode_ref_inner v s context fuel = encode_ref_inner v s' context fuel)
    ∧ (valueKind v = .union → treeKind s ≠ .union →
        encode_ref_inner v s context fuel = some ([], context))
    ∧ (valueKind v = .array → treeKind s ≠ .array →
        encode_ref_inner v s context fuel = some ([], context))
    ∧ (valueKind v = .map → treeKind s ≠ .map →
        encode_ref_inner v s context fuel = some ([], context))
    ∧ (valueKind v = .record → treeKind s ≠ .record →
        treeKind s ≠ .typeReference →
        encode_ref_inner v s context fuel = some ([], context))
    ∧ (valueKind v = .string → treeKind s ≠ .string → treeKind s ≠ .enum →
        encode_ref_inner v s context fuel = some ([], context)) := by
  refine ⟨fun hfree =>
      encode_unionRecordFree_ne_none (sizeOf v) v le_rfl hfree s context fuel,
    ?_, ?_, ?_, ?_, ?_, ?_⟩
  · intro hp s'
    cases v <;> simp [primitiveValue] at hp <;> rw [encode_ref_inner, encode_ref_inner]
  · intro hv hs
    cases v <;> simp [valueKind] at hv
    cases s <;> (try simp [treeKind] at hs) <;> rw [encode_ref_inner] <;> simp
  · intro hv hs
    cases v <;> simp [valueKind] at hv
    cases s <;> (try simp [treeKind] at hs) <;> rw [encode_ref_inner] <;> simp
  · intro hv hs
    cases v <;> simp [valueKind] at hv
    cases s <;> (try simp [treeKind] at hs) <;> rw [encode_ref_inner] <;> simp
  · intro hv hs1 hs2
    cases v <;> simp [valueKind] at hv
    cases s <;> (try simp [treeKind] at hs1 hs2) <;> rw [encode_ref_inner] <;> simp
  · intro hv hs1 hs2
    cases v <;> simp [valueKind] at hv
    cases s <;> (try simp [treeKind] at hs1 hs2) <;> rw [encode_ref_inner] <;> simp

/-- Witness for the amended C2, at concrete inputs: an array of ints never
fails against any schema; an `Int` encodes identically against `Null` and
`Boolean` schemas; a `Union` value against an `Int` schema emits nothing. -/
theorem claim2_amended_witness :
    (unionRecordFree (.array [.int 1]) = true
      ∧ encode_ref_inner (.array [.int 1]) .null SchemaParseContext.new 1 ≠ none)
    ∧ (primitiveValue (.int 7) = true
      ∧ encode_ref_inner (.int 7) .null SchemaParseContext.new 1
          = encode_ref_inner (.int 7) .boolean SchemaParseContext.new 1)
    ∧ (valueKind (.union .null) = .union ∧ treeKind .int ≠ .union
      ∧ encode_ref_inner (.union .null) .int SchemaParseContext.new 1
          = some ([], SchemaParseContext.new)) := by
  refine ⟨⟨?_, ?_⟩, ⟨?_, ?_⟩, ?_, ?_, ?_⟩
  · decide
  · exact (claim2_amended (.array [.int 1]) .null SchemaParseContext.new 1).1
      (by decide)
  · decide
  · exact (claim2_amended (.int 7) .null SchemaParseContext.new 1).2.1
      (by decide) .boolean
  · decide
  · decide
  · exact (claim2_amended (.union .null) .int SchemaParseContext.new 1).2.2.1
      (by decide) (by decide)

theorem resolveFields_names (fields : List RecordField) :
    ∀ (items : List (String × Value)) (context : SchemaParseContext)
      (fuel : Nat) (nf : List (String × Value)) (c' : SchemaParseContext),
      resolveFields fields items context fuel = (.ok nf, c') →
      nf.map Prod.fst = fields.map RecordField.name := by
  induction fields with
  | nil =>
      intro items context fuel nf c' h
      simp only [resolveFields.eq_def] at h
      simp at h
      simp [h.1]
  | cons f fs ih =>
      obtain ⟨fname, fdoc, fdef, fschema, ford, fpos⟩ := f
      intro items context fuel nf c' h
      rw [resolveFields] at h
      rcases hrem : hmRemove fname items with ⟨removed, items'⟩
      rw [hrem] at h
      cases hch : chooseFieldValue fname fschema fdef removed with
      | error e => simp only [hch] at h; simp at h
      | ok value =>
          simp only [hch] at h
          rcases hres : Value.resolve value fschema context fuel with ⟨res, c1⟩
          simp only [hres] at h
          cases res with
          | error e => simp at h
          | ok rv =>
              rcases hrest : resolveFields fs
                  (if removed.isSome then items' else items) c1 fuel with ⟨res2, c2⟩
              simp only [hrest] at h
              cases res2 with
              | error e => simp [fieldCons] at h
              | ok rest =>
                  simp [fieldCons] at h
                  rw [← h.1]
                  simp [RecordField.name]
                  exact ih _ c1 fuel rest c2 hrest

theorem resolve_record_ok_shape (self : Value) (fields : List RecordField)
    (context : SchemaParseContext) (fuel : Nat) (out : Value)
    (c' : SchemaParseContext)
    (h : Value.resolve_record self fields context fuel = (.ok out, c')) :
    ∃ nf, out = .record nf
      ∧ nf.map Prod.fst = fields.map RecordField.name := by
  cases self
  case map entries =>
    simp only [Value.resolve_record.eq_def] at h
    rcases hres : resolveFields fields entries context fuel with ⟨res, c1⟩
    rw [hres] at h
    cases res with
    | error e => simp at h
    | ok nf =>
        simp at h
        exact ⟨nf, h.1.symm,
          resolveFields_names fields entries context fuel nf c1 hres⟩
  case record rfields =>
    simp only [Value.resolve_record.eq_def] at h
    rcases hres : resolveFields fields (hmCollect rfields) context fuel with ⟨res, c1⟩
    rw [hres] at h
    cases res with
    | error e => simp at h
    | ok nf =>
        simp at h
        exact ⟨nf, h.1.symm,
          resolveFields_names fields (hmCollect rfields) context fuel nf c1 hres⟩
  all_goals simp only [Value.resolve_record.eq_def] at h
  all_goals simp at h

/-- C3: a Record (or Map) value that resolves successfully against a reader
Record schema yields a Record whose field names, in order, are exactly the
reader schema's field names in declared order, whatever the writer order
was. -/
theorem claim3_resolve_record_reader_order (v : Value) (nm : Name)
    (doc : Option String) (fields : List RecordField)
    (lookup : List (String × Nat)) (context : SchemaParseContext) (fuel : Nat)
    (out : Value) (c' : SchemaParseContext)
    (h : Value.resolve v (.record nm doc fields lookup) context fuel
      = (.ok out, c')) :
    ∃ nf, out = .record nf
      ∧ nf.map Prod.fst = fields.map RecordField.name := by
  rw [Value.resolve] at h
  exact resolve_record_ok_shape _ _ _ _ _ _ h

/-- Witness for C3, on the spec's example: `{b: "x", a: 1}` resolved against
reader `{a: int, b: string}` yields fields in reader order `[a, b]`. -/
theorem claim3_resolve_record_reader_order_witness :
    Value.resolve (.record [("b", .string "x"), ("a", .int 1)])
        (.record ⟨"r", none⟩ none
          [.mk "a" none none .int .ascending 0,
           .mk "b" none none .string .ascending 1] [])
        SchemaParseContext.new 1
      = (.ok (.record [("a", .int 1), ("b", .string "x")]),
         SchemaParseContext.new)
    ∧ ∃ nf, (Value.record [("a", .int 1), ("b", .string "x")]) = .record nf
        ∧ nf.map Prod.fst
            = [RecordField.mk "a" none none .int .ascending 0,
               .mk "b" none none .string .ascending 1].map RecordField.name := by
  have he : Value.resolve (.record [("b", .string "x"), ("a", .int 1)])
      (.record ⟨"r", none⟩ none
        [.mk "a" none none .int .ascending 0,
         .mk "b" none none .string .ascending 1] [])
      SchemaParseContext.new 1
      = (.ok (.record [("a", .int 1), ("b", .string "x")]),
         SchemaParseContext.new) := by
    rw [Value.resolve]
    simp [unionUnwrap, valueKind, treeKind, Value.resolve_record, hmCollect,
      hmInsert, hmErase, hmGet, resolveFields, hmRemove, Value.resolve,
      Value.resolve_int, Value.resolve_string, chooseFieldValue, defaultValue,
      fieldCons]
  exact ⟨he, claim3_resolve_record_reader_order _ _ _ _ _ _ _ _ _ he⟩

theorem hmGet_erase_ne {α : Type} (k k' : String) (m : List (String × α))
    (hne : k' ≠ k) : hmGet k' (hmErase k m) = hmGet k' m := by
  induction m with
  | nil => rfl
  | cons p rest ih =>
      obtain ⟨pk, pv⟩ := p
      by_cases hpk : pk = k
      · subst hpk
        have hk' : (pk == k') = false := by
          simp
          exact fun e => hne e.symm
        simp [hmErase, hmGet, List.filter_cons, List.find?, hk']
        simpa [hmErase, hmGet] using ih
      · by_cases hpk' : pk = k'
        · subst hpk'
          simp [hmErase, hmGet, List.filter_cons, List.find?, hpk]
        · have hk'' : (pk == k') = false := by simpa using hpk'
          simp [hmErase, hmGet, List.filter_cons, List.find?, hpk, hk'']
          simpa [hmErase, hmGet] using ih

theorem resolveFieldsSpec_erase (fields : List RecordField) (k : String) :
    ∀ (items : List (String × Value)) (context : SchemaParseContext)
      (fuel : Nat), k ∉ fields.map RecordField.name →
      resolveFieldsSpec fields (hmErase k items) context fuel
        = resolveFieldsSpec fields items context fuel := by
  induction fields with
  | nil =>
      intro items context fuel _
      rw [resolveFieldsSpec, resolveFieldsSpec]
  | cons f fs ih =>
      obtain ⟨fname, fdoc, fdef, fschema, ford, fpos⟩ := f
      intro items context fuel h
      simp only [List.map_cons, List.mem_cons, not_or, RecordField.name] at h
      rw [resolveFieldsSpec, resolveFieldsSpec]
      rw [hmGet_erase_ne k fname items (fun e => h.1 e.symm)]
      cases hch : chooseFieldValue fname fschema fdef (hmGet fname items) with
      | error e => rfl
      | ok value =>
          rcases hres : Value.resolve value fschema context fuel with ⟨res, c1⟩
          cases res with
          | error e => simp [hres]
          | ok rv => simp [hres, ih items c1 fuel h.2]

theorem resolveFields_eq_spec (fields : List RecordField) :
    ∀ (items : List (String × Value)) (context : SchemaParseContext)
      (fuel : Nat), (fields.map RecordField.name).Nodup →
      resolveFields fields items context fuel
        = resolveFieldsSpec fields items context fuel := by
  induction fields with
  | nil =>
      intro items context fuel _
      rw [resolveFields, resolveFieldsSpec]
  | cons f fs ih =>
      obtain ⟨fname, fdoc, fdef, fschema, ford, fpos⟩ := f
      intro items context fuel hnd
      simp only [List.map_cons, List.nodup_cons, RecordField.name] at hnd
      rw [resolveFields, resolveFieldsSpec]
      rcases hrem : hmRemove fname items with ⟨removed, items'⟩
      rw [hmRemove] at hrem
      have hrm : removed = hmGet fname items := by
        have := congrArg Prod.fst hrem
        simpa using this.symm
      have her : items' = hmErase fname items := by
        have := congrArg Prod.snd hrem
        simpa using this.symm
      simp only [hmRemove, hrm.symm, her.symm]
      cases hch : chooseFieldValue fname fschema fdef removed with
      | error e => rfl
      | ok value =>
          rcases hres : Value.resolve value fschema context fuel with ⟨res, c1⟩
          cases res with
          | error e => simp [hres]
          | ok rv =>
              simp only [hres]
              cases hrmv : removed with
              | some v0 =>
                  have : (if (some v0 : Option Value).isSome then items' else items)
                      = items' := by simp
                  rw [this, her, ih (hmErase fname items) c1 fuel hnd.2,
                    resolveFieldsSpec_erase fs fname items c1 fuel hnd.1]
              | none =>
                  have : (if (none : Option Value).isSome then items' else items)
                      = items := by simp
                  rw [this, ih items c1 fuel hnd.2]

/-- C4: when resolving a Record or Map value against a reader Record schema
(with well-formed, duplicate-free reader field names, as the lookup
bijection guarantees), each reader field takes the writer-provided value
when its name is present, else its declared default (an Enum-typed field's
default re-validated against the symbol list first), else resolution fails
with the missing-field error — i.e. the consuming `remove`-based loop of
the source coincides with the lookup-based reading `resolveFieldsSpec` of
the claim. -/
theorem claim4_record_field_selection (nm : Name) (doc : Option String)
    (lookup : List (String × Nat)) (fields : List RecordField)
    (items : List (String × Value)) (context : SchemaParseContext)
    (fuel : Nat) (hnd : (fields.map RecordField.name).Nodup) :
    resolveFields fields items context fuel
      = resolveFieldsSpec fields items context fuel
    ∧ Value.resolve (.map items) (.record nm doc fields lookup) context fuel
        = (match resolveFieldsSpec fields items context fuel with
           | (.ok nf, c') => (.ok (.record nf), c')
           | (.error e, c') => (.error e, c')) := by
  have h1 := resolveFields_eq_spec fields items context fuel hnd
  refine ⟨h1, ?_⟩
  rw [Value.resolve]
  have hu : unionUnwrap (.map items) (.record nm doc fields lookup)
      = .map items := by
    simp [unionUnwrap, valueKind]
  rw [hu]
  simp only [Value.resolve_record.eq_def]
  simp only [h1]

/-- Witness for C4, on the spec's example: reader `{a: int, b: string
default "z"}` against writer `{a: 1}`. -/
theorem claim4_record_field_selection_witness :
    (([RecordField.mk "a" none none .int .ascending 0,
       RecordField.mk "b" none (some (.str "z")) .string .ascending 1].map
        RecordField.name).Nodup)
    ∧ resolveFields
        [RecordField.mk "a" none none .int .ascending 0,
         RecordField.mk "b" none (some (.str "z")) .string .ascending 1]
        [("a", .int 1)] SchemaParseContext.new 1
      = resolveFieldsSpec
        [RecordField.mk "a" none none .int .ascending 0,
         RecordField.mk "b" none (some (.str "z")) .string .ascending 1]
        [("a", .int 1)] SchemaParseContext.new 1 := by
  refine ⟨by decide, ?_⟩
  exact (claim4_record_field_selection ⟨"r", none⟩ none []
    [RecordField.mk "a" none none .int .ascending 0,
     RecordField.mk "b" none (some (.str "z")) .string .ascending 1]
    [("a", .int 1)] SchemaParseContext.new 1 (by decide)).1

theorem validateFieldsZip_characterization (fields : List RecordField) :
    ∀ (record_fields : List (String × Value)) (c : SchemaParseContext)
      (fuel : Nat), fields.length = record_fields.length →
      ((validateFieldsZip fields record_fields c fuel).fst = true ↔
        (fields.map RecordField.name = record_fields.map Prod.fst
         ∧ (recordValuesCheck fields record_fields c fuel).fst = true)) := by
  induction fields with
  | nil =>
      intro record_fields c fuel hlen
      cases record_fields with
      | nil => simp [validateFieldsZip, recordValuesCheck]
      | cons p rest => simp at hlen
  | cons f fs ih =>
      obtain ⟨fname, fdoc, fdef, fschema, ford, fpos⟩ := f
      intro record_fields c fuel hlen
      cases record_fields with
      | nil => simp at hlen
      | cons p rest =>
          obtain ⟨pname, pvalue⟩ := p
          have hlen' : fs.length = rest.length := by simpa using hlen
          rw [validateFieldsZip, recordValuesCheck]
          by_cases hn : fname = pname
          · subst hn
            rcases hval : Value.validate_inner pvalue fschema c fuel with ⟨ok, c'⟩
            cases ok with
            | true =>
                simp [RecordField.name, ih rest c' fuel hlen']
            | false =>
                simp [RecordField.name]
          · simp [hn, RecordField.name]

/-- C7: the validator accepts a Record value against a Record schema exactly
when the field count matches, the field name at every position equals the
schema field name at the same position (captured by equality of the two name
lists), and every field value validates against its field's schema (the
contexts threaded as the validator threads them); so any reordering,
renaming or extra field makes validation fail. -/
theorem claim7_validate_record_iff (rf : List (String × Value)) (nm : Name)
    (doc : Option String) (fields : List RecordField)
    (lookup : List (String × Nat)) (context : SchemaParseContext)
    (fuel : Nat) :
    (Value.validate_inner (.record rf) (.record nm doc fields lookup)
        context fuel).fst = true ↔
      (fields.length = rf.length
       ∧ fields.map RecordField.name = rf.map Prod.fst
       ∧ (recordValuesCheck fields rf (nsUpdate nm context) fuel).fst
           = true) := by
  rw [Value.validate_inner]
  by_cases hlen : fields.length = rf.length
  · simp only [hlen, if_true]
    rw [validateFieldsZip_characterization fields rf (nsUpdate nm context)
      fuel hlen]
    simp [hlen]
  · simp [hlen]

end Avro
